import Mathlib

/-!
Verification development for the collaborative-editing Workspace engine
(resources/js/Workspace.js) and its state cache controller
(src/StateController.php).

Modelling conventions of the shallow embedding:
* JavaScript objects are association lists in insertion order (`Obj`);
  property read, write, delete and spread-merge are `oget`, `oset`,
  `odel`, `objMerge`.
* JavaScript sparse arrays are lists of optional entries; element
  assignment is `arrSet`, the filled-slot count is `countSome`.
* Whisper payloads are handled at the level of their serialized form,
  a list of characters, exactly as `whisper` serializes before chunking.
* Asynchronous network outcomes are passed in explicitly
  (`FetchResult`, the `ok` flag of `persistAllChanges`), since the
  engine is single-threaded and each handler runs to completion.
-/

namespace Collab

variable {V W : Type}

/-- JavaScript object modelled as an association list keyed by strings,
in insertion order. -/
abbrev Obj (V : Type) := List (String × V)

/-- Property read `o[k]`: the first entry with key `k`. -/
def oget (k : String) : Obj V → Option V
  | [] => none
  | (k1, v) :: rest => if k = k1 then some v else oget k rest

/-- Property write `o[k] = v`: update an existing key in place, or append. -/
def oset (k : String) (v : V) : Obj V → Obj V
  | [] => [(k, v)]
  | (k1, v1) :: rest => if k = k1 then (k, v) :: rest else (k1, v1) :: oset k v rest

/-- Property removal `delete o[k]`. -/
def odel (k : String) : Obj V → Obj V
  | [] => []
  | (k1, v1) :: rest => if k = k1 then odel k rest else (k1, v1) :: odel k rest

/-- Spread merge of two objects (`\x7b...a, ...b\x7d`): keys of `a` in order,
updated by `b` where present, followed by the keys only `b` has. -/
def objMerge (a b : Obj V) : Obj V :=
  a.map (fun kv => (kv.1, (oget kv.1 b).getD kv.2))
    ++ b.filter (fun kv => (oget kv.1 a).isNone)

/-- Keys of an object are pairwise distinct (always true of a parsed
JSON object; assumed where list-level equalities need it). -/
abbrev keysNodup (o : Obj V) : Prop := (o.map Prod.fst).Nodup

/-- Scalar JSON value, the value domain used for the change-detection
caches of the Workspace. -/
inductive JVal
  | jnull
  | jbool (b : Bool)
  | jnum (n : Int)
  | jstr (s : String)
deriving DecidableEq, Repr

/-- The serialization `JSON.stringify` on scalar values. -/
def jstringify : JVal → String
  | .jnull => "null"
  | .jbool true => "true"
  | .jbool false => "false"
  | .jnum n => toString n
  | .jstr s => "\"" ++ s ++ "\""

/-- JavaScript truthiness on scalar JSON values: the falsy ones. -/
def falsy : JVal → Bool
  | .jnull => true
  | .jbool b => !b
  | .jnum n => n == 0
  | .jstr s => s == ""

/-- Protection window for local changes, `localChangeProtectionMs` (3000). -/
def localChangeProtectionMs : Nat := 3000

/-- Hard per-message size ceiling used by `whisper` (2500). -/
def chunkSize : Nat := 2500

/-- The Workspace mutable state relevant to change detection, persistence
and reconciliation.  Field values have type `V`; per-field metadata is an
object of sub-keys (`Obj V`), as manipulated by the meta merges. -/
structure WsState (V : Type) where
  values : Obj V
  meta : Obj (Obj V)
  lastValues : Obj V
  lastMetaValues : Obj (Obj V)
  applyingBroadcast : Bool
  loadingCachedState : Bool
  lastLocalChangeTime : Nat
  hasPendingChanges : Bool
deriving DecidableEq, Repr

/-- Workspace.hasChanged: compare the new value against
`cache[handle] || null` by serialized comparison. -/
def hasChanged (cache : Obj JVal) (handle : String) (newValue : JVal) : Bool :=
  let lastValue :=
    match oget handle cache with
    | some v => if falsy v then JVal.jnull else v
    | none => JVal.jnull
  jstringify lastValue != jstringify newValue

/-- Workspace.vuexFieldValueHasBeenSet: ignore the mutation unless the
serialized value changed; otherwise remember it, and mark the field dirty
and stamp the local-change time only when the mutation is not the result
of applying a broadcast. -/
def vuexFieldValueHasBeenSet (now : Nat) (st : WsState JVal) (handle : String)
    (value : JVal) : WsState JVal :=
  if !(hasChanged st.lastValues handle value) then st
  else
    let st1 := { st with lastValues := oset handle value st.lastValues }
    if st1.applyingBroadcast then st1
    else { st1 with lastLocalChangeTime := now, hasPendingChanges := true }

/-- Workspace.isAlone, as a function of the warm-up flag, the user roster
length, the size of `activeWindows` and the size of `localWindows`. -/
def isAlone (warmUpPeriod : Bool) (usersLen activeWindowsSize localWindowsSize : Nat) : Bool :=
  if warmUpPeriod then false
  else
    let multipleUsers := decide (usersLen > 1)
    let multipleRemoteWindows := decide (activeWindowsSize > 1)
    let multipleLocalWindows := decide (localWindowsSize > 0)
    !multipleUsers && !multipleRemoteWindows && !multipleLocalWindows

/-- One message of the chunked transport: shared message id, chunk index,
chunk text and final flag. -/
structure ChunkMsg where
  id : String
  index : Nat
  chunk : List Char
  final : Bool
deriving DecidableEq, Repr

/-- Number of iterations of the chunking loop `for (i = 0; i * c < len; i++)`. -/
def numChunks (c len : Nat) : Nat := (len + c - 1) / c

/-- The chunk the loop builds at index `i`. -/
def chunkMsgAt (c : Nat) (msgId : String) (s : List Char) (i : Nat) : ChunkMsg :=
  { id := msgId
    index := i
    chunk := (s.drop (i * c)).take c
    final := decide (c * (i + 1) ≥ s.length) }

/-- The chunking loop of Workspace.whisper: ordered indexed slices of the
serialized payload under one message id. -/
def mkChunks (c : Nat) (msgId : String) (s : List Char) : List ChunkMsg :=
  (List.range (numChunks c s.length)).map (chunkMsgAt c msgId s)

/-- What a call to Workspace.whisper puts on the channel. -/
inductive WhisperSend
  | skipped
  | direct (event : String) (payload : List Char)
  | chunked (event : String) (msgs : List ChunkMsg)
deriving DecidableEq, Repr

/-- Workspace.whisper: skip entirely when alone unless forced; send small
payloads directly and chunk large ones under a `chunked-` event name.
`str` is the serialized payload and `msgId` the random message id. -/
def whisper (alone force : Bool) (event : String) (str : List Char)
    (msgId : String) : WhisperSend :=
  if !force && alone then .skipped
  else if str.length < chunkSize then .direct event str
  else .chunked ("chunked-" ++ event) (mkChunks chunkSize msgId str)

/-- Buffer kept per message id by the chunked listener: a sparse array of
chunks and whether the final-flagged chunk has arrived. -/
structure PendingMsg where
  chunks : List (Option (List Char))
  receivedFinal : Bool
deriving DecidableEq, Repr

/-- JavaScript array element assignment `a[i] = v`: set in range, or extend
the array with holes up to index `i`. -/
def arrSet (a : List (Option α)) (i : Nat) (v : α) : List (Option α) :=
  if i < a.length then a.set i (some v)
  else a ++ List.replicate (i - a.length) none ++ [some v]

/-- Number of filled slots of a sparse array (`Object.keys(a).length`). -/
def countSome (a : List (Option α)) : Nat := (a.filter Option.isSome).length

/-- Sparse-array `a.join('')`: holes contribute nothing. -/
def joinChunks (a : List (Option (List Char))) : List Char :=
  (a.map (fun o => o.getD [])).flatten

/-- Element read of a sparse array, holes and out-of-range reads both `none`. -/
def slot (a : List (Option α)) (j : Nat) : Option α := a.getD j none

/-- State of one chunked listener registered by Workspace.listenForWhisper:
partial messages buffered by id, and the payloads delivered to the
callback so far (in order, each one the reassembled serialized payload). -/
structure ReasmState where
  events : Obj PendingMsg
  delivered : List (List Char)
deriving DecidableEq, Repr

/-- The chunked-event handler body of Workspace.listenForWhisper: buffer
the chunk; once the final chunk has arrived and the buffered-chunk count
equals the array length, deliver the joined payload once and discard the
buffer. -/
def reasmStep (st : ReasmState) (d : ChunkMsg) : ReasmState :=
  let e := (oget d.id st.events).getD { chunks := [], receivedFinal := false }
  let chunks := arrSet e.chunks d.index d.chunk
  let fin := e.receivedFinal || d.final
  if fin = true ∧ chunks.length = countSome chunks then
    { events := odel d.id st.events
      delivered := st.delivered ++ [joinChunks chunks] }
  else
    { events := oset d.id { chunks := chunks, receivedFinal := fin } st.events
      delivered := st.delivered }

/-- Run the chunked listener on a sequence of received chunk messages,
starting with no buffered state and nothing delivered. -/
def reasmRun (ds : List ChunkMsg) : ReasmState :=
  ds.foldl reasmStep { events := [], delivered := [] }

/-- Number of occurrences of a chunk message in a received sequence. -/
def countOcc (x : ChunkMsg) : List ChunkMsg → Nat
  | [] => 0
  | d :: rest => (if d = x then 1 else 0) + countOcc x rest

/-- Outcome of the GET fetch inside Workspace.loadCachedState. -/
inductive FetchResult (V : Type)
  | failed
  | notExists
  | ok (values : Option (Obj V)) (meta : Option (Obj (Obj V)))
deriving DecidableEq

/-- The body of Workspace.loadCachedState once past its guards: take the
re-entrancy flags, fetch, merge fetched values (shallow, fetched keys win)
and fetched meta (per field key, the fetched entry replaces the current
one), update the last-seen caches, and in all outcomes, error included,
reset both flags in the `finally` clause. -/
def loadCachedStateBody (st : WsState V) (fetch : FetchResult V) : WsState V :=
  let st0 := { st with loadingCachedState := true, applyingBroadcast := true }
  let st1 :=
    match fetch with
    | .failed => st0
    | .notExists => st0
    | .ok vs ms =>
      let stv :=
        match vs with
        | some l =>
          if l.isEmpty then st0
          else { st0 with values := objMerge st0.values l
                          lastValues := objMerge st0.lastValues l }
        | none => st0
      match ms with
      | some l =>
        if l.isEmpty then stv
        else { stv with meta := objMerge stv.meta l
                        lastMetaValues := objMerge stv.lastMetaValues l }
      | none => stv
  { st1 with applyingBroadcast := false, loadingCachedState := false }

/-- Workspace.loadCachedState: a no-op while another load is in flight; a
no-op when a local change is within the protection window, except for the
pre-unlock fetch (source `before-unlock`); otherwise runs the body. -/
def loadCachedState (now : Nat) (source : String) (st : WsState V)
    (fetch : FetchResult V) : WsState V :=
  if st.loadingCachedState then st
  else if source ≠ "before-unlock" ∧
      now - st.lastLocalChangeTime < localChangeProtectionMs then st
  else loadCachedStateBody st fetch

/-- Workspace.persistAllChanges; `ok` tells whether the POST to the cache
service succeeded.  Returns the new state and whether a POST was issued.
On failure the pending flag is restored so a later attempt retries. -/
def persistAllChanges (st : WsState V) (ok : Bool) : WsState V × Bool :=
  if !st.hasPendingChanges then (st, false)
  else
    let st1 := { st with hasPendingChanges := false }
    if ok then (st1, true)
    else ({ st1 with hasPendingChanges := true }, true)

/-- Payload of the `initialize-state-for-window` whisper. -/
structure InitStatePayload (V : Type) where
  values : Obj V
  meta : Obj (Obj V)
  fromWindowId : String
deriving DecidableEq

/-- Workspace.restoreEntireMetaPayload: per key, spread the last known
meta under the received one. -/
def restoreEntireMetaPayload (lastMetaValues : Obj (Obj V)) (payload : Obj (Obj V)) :
    Obj (Obj V) :=
  payload.map (fun kv => (kv.1, objMerge ((oget kv.1 lastMetaValues).getD []) kv.2))

/-- The state-merge part of the `initialize-state-for-window` whisper
handler: skip the sending window and the protection window; then, under
the re-entrancy flag, shallow-merge values and merge meta per field key
as existing spread under incoming.  `crashAfterValues` models a throw
inside the `try` block after the values commit: the `finally` clause
still clears the flag. -/
def applyInitializeState (now : Nat) (myWindowId : String) (st : WsState V)
    (p : InitStatePayload V) (crashAfterValues : Bool) : WsState V :=
  if p.fromWindowId = myWindowId then st
  else if now - st.lastLocalChangeTime < localChangeProtectionMs then st
  else
    let st1 := { st with applyingBroadcast := true }
    let st2 := { st1 with values := objMerge st1.values p.values }
    if crashAfterValues then { st2 with applyingBroadcast := false }
    else
      let restoredMeta := restoreEntireMetaPayload st2.lastMetaValues p.meta
      let mergedMeta := objMerge st2.meta
        (restoredMeta.map (fun kv => (kv.1, objMerge ((oget kv.1 st2.meta).getD []) kv.2)))
      let st3 := { st2 with meta := mergedMeta }
      { st3 with applyingBroadcast := false }

/-- A concrete Workspace state used to instantiate theorems on explicit
inputs. -/
def sampleSt : WsState Nat :=
  { values := [("title", 1)]
    meta := [("img", [("url", 7)])]
    lastValues := [("title", 1)]
    lastMetaValues := [("img", [("url", 7)])]
    applyingBroadcast := false
    loadingCachedState := false
    lastLocalChangeTime := 0
    hasPendingChanges := true }

/-- Document state for the metadata-merge counterexample (C4): field
`img` has nested metadata sub-keys `url` and `alt`. -/
def stC4 : WsState Nat :=
  { values := []
    meta := [("img", [("url", 7), ("alt", 3)])]
    lastValues := []
    lastMetaValues := []
    applyingBroadcast := false
    loadingCachedState := false
    lastLocalChangeTime := 0
    hasPendingChanges := false }

/-- A fetched partial metadata update for `img` carrying only the
sub-key `url` (C4). -/
def fetchC4 : FetchResult Nat := .ok none (some [("img", [("url", 9)])])

/-- An initialize-state-for-window payload from another window (C4). -/
def initC4 : InitStatePayload Nat :=
  { values := [("title", 6)], meta := [("img", [("alt", 2)])], fromWindowId := "w2" }

/-- Invariant of the reassembly buffer while a chunked message with
`numChunks c s.length` chunks is being received: the sparse array never
grows beyond the chunk count and every filled slot holds the true chunk
of its index. -/
def goodArr (c : Nat) (s : List Char) (arr : List (Option (List Char))) : Prop :=
  arr.length ≤ numChunks c s.length ∧
    ∀ j v, slot arr j = some v → v = (s.drop (j * c)).take c

/-- Invariant of a buffered, not yet delivered, chunked message: the
buffer is good, the final flag implies the last chunk is buffered, the
final chunk is still to come exactly when the flag is unset, every
missing chunk is still to come, and the completion test has not fired. -/
def bufInv (c : Nat) (msgId : String) (s : List Char) (rem : List ChunkMsg)
    (arr : List (Option (List Char))) (fin : Bool) : Prop :=
  goodArr c s arr ∧
    (fin = true → (slot arr (numChunks c s.length - 1)).isSome = true) ∧
    countOcc (chunkMsgAt c msgId s (numChunks c s.length - 1)) rem
      = (if fin then 0 else 1) ∧
    (∀ j, j < numChunks c s.length → slot arr j = none →
      chunkMsgAt c msgId s j ∈ rem) ∧
    ¬(fin = true ∧ arr.length = countSome arr)

/-- Invariant of a reassembly run with `rem` chunk messages still to be
processed: either nothing has been delivered yet and the buffer satisfies
`bufInv`, or the payload has been delivered exactly once and no chunk
carrying the final flag remains. -/
def reasmInv (c : Nat) (msgId : String) (s : List Char) (rem : List ChunkMsg)
    (st : ReasmState) : Prop :=
  (st.delivered = [] ∧
    ∃ arr fin,
      ((st.events = [] ∧ arr = [] ∧ fin = false) ∨
        st.events = [(msgId, { chunks := arr, receivedFinal := fin })]) ∧
      bufInv c msgId s rem arr fin) ∨
  (st.delivered = [s] ∧
    (st.events = [] ∨
      ∃ arr, st.events = [(msgId, { chunks := arr, receivedFinal := false })]) ∧
    countOcc (chunkMsgAt c msgId s (numChunks c s.length - 1)) rem = 0)

/-- Vuex commits issued by the lock state machine. -/
inductive Commit
  | cancelPendingUnlock (handle : String)
  | focus (userId : Nat) (handle : String)
  | lockField (userId : Nat) (handle : String)
deriving DecidableEq, Repr

/-- The `focus` whisper listener: ignore our own window; cancel a pending
unlock; then track focus only for our own user, and focus-and-lock
(the `focus` commit followed by the `lockField` commit) for other users. -/
def onFocusWhisper (myWindowId : String) (myUserId : Nat) (userId : Nat)
    (handle : String) (windowId : String) : List Commit :=
  if windowId = myWindowId then []
  else
    Commit.cancelPendingUnlock handle ::
      (if userId = myUserId then
        [Commit.focus userId handle]
      else
        [Commit.focus userId handle, Commit.lockField userId handle])

/-! Helper lemmas about object reads and spread merges. -/

theorem oget_map_val (f : String → V → W) (l : Obj V) (k : String) :
    oget k (l.map (fun kv => (kv.1, f kv.1 kv.2))) = (oget k l).map (f k) := by
  induction l with
  | nil => rfl
  | cons kv rest ih =>
    obtain ⟨k1, v⟩ := kv
    by_cases h : k = k1
    · subst h; simp [oget]
    · simp [oget, h, ih]

theorem oget_append (l1 l2 : Obj V) (k : String) :
    oget k (l1 ++ l2) = (oget k l1).or (oget k l2) := by
  induction l1 with
  | nil => simp [oget]
  | cons kv rest ih =>
    obtain ⟨k1, v⟩ := kv
    by_cases h : k = k1
    · subst h; simp [oget]
    · simp [oget, h, ih]

theorem oget_filter_isNone (a b : Obj V) (k : String) :
    oget k (b.filter (fun kv => (oget kv.1 a).isNone)) =
      if (oget k a).isNone then oget k b else none := by
  induction b with
  | nil => simp [oget]
  | cons kv rest ih =>
    obtain ⟨k1, v⟩ := kv
    by_cases hp : (oget k1 a).isNone
    · rw [List.filter_cons_of_pos (by simpa using hp)]
      by_cases h : k = k1
      · subst h; simp [oget, hp]
      · simp [oget, h, ih]
    · rw [List.filter_cons_of_neg (by simpa using hp)]
      by_cases h : k = k1
      · subst h; simp [oget, hp, ih]
      · simp [oget, h, ih]

theorem oget_objMerge (a b : Obj V) (k : String) :
    oget k (objMerge a b) = (oget k b).or (oget k a) := by
  unfold objMerge
  rw [oget_append, oget_map_val (fun k v => (oget k b).getD v), oget_filter_isNone]
  cases ha : oget k a <;> cases hb : oget k b <;> simp [ha, hb]

theorem oget_isSome_of_mem (b : Obj V) (kv : String × V) (h : kv ∈ b) :
    (oget kv.1 b).isSome = true := by
  induction b with
  | nil => cases h
  | cons hd tl ih =>
    rcases List.mem_cons.mp h with rfl | h2
    · simp [oget]
    · obtain ⟨k1, v⟩ := hd
      by_cases hk : kv.1 = k1 <;> simp [oget, hk, ih h2]

theorem oget_of_mem_nodup (b : Obj V) (kv : String × V) (hb : keysNodup b)
    (h : kv ∈ b) : oget kv.1 b = some kv.2 := by
  induction b with
  | nil => cases h
  | cons hd tl ih =>
    obtain ⟨hhd, htl⟩ := List.nodup_cons.mp hb
    rcases List.mem_cons.mp h with rfl | h2
    · simp [oget]
    · have hne : kv.1 ≠ hd.1 := by
        intro he
        exact hhd (he ▸ List.mem_map_of_mem Prod.fst h2)
      simp [oget, hne, ih htl h2]

theorem map_eq_self_of (l : List α) (f : α → α) (h : ∀ x ∈ l, f x = x) :
    l.map f = l := by
  induction l with
  | nil => rfl
  | cons hd tl ih => simp [h hd (by simp), ih (fun x hx => h x (by simp [hx]))]

theorem objMerge_idem (b : Obj V) (hb : keysNodup b) (a : Obj V) :
    objMerge (objMerge a b) b = objMerge a b := by
  have h2 : (b.filter (fun kv => (oget kv.1 (objMerge a b)).isNone)) = [] := by
    rw [List.filter_eq_nil_iff]
    intro kv hkv
    have h := oget_isSome_of_mem b kv hkv
    rw [oget_objMerge]
    rcases Option.isSome_iff_exists.mp h with ⟨v, hv⟩
    simp [hv, Option.or]
  have h1 : (objMerge a b).map (fun kv => (kv.1, (oget kv.1 b).getD kv.2))
      = objMerge a b := by
    apply map_eq_self_of
    intro kv hkv
    rcases List.mem_append.mp hkv with hkv1 | hkv2
    · rcases List.mem_map.mp hkv1 with ⟨kv0, _, rfl⟩
      cases hb0 : oget kv0.1 b <;> simp [hb0]
    · have hmem : kv ∈ b := List.mem_of_mem_filter hkv2
      have := oget_of_mem_nodup b kv hb hmem
      simp [this]
  show (objMerge a b).map (fun kv => (kv.1, (oget kv.1 b).getD kv.2))
      ++ (b.filter (fun kv => (oget kv.1 (objMerge a b)).isNone)) = objMerge a b
  rw [h1, h2, List.append_nil]

/-! Claims C2, C3, C5, C6, C7, C9, C10. -/

/-- C2: a reconciliation fetch from any source other than the pre-unlock
fetch is a complete no-op (no field value is overwritten) while the local
edit timestamp is inside the protection window, and the pre-unlock fetch
(source `before-unlock`) runs the fetch body regardless of the protection
window (here: at the very same instant at which every other source is
blocked). -/
theorem loadCachedState_protection (now : Nat) (source : String)
    (st : WsState V) (fetch : FetchResult V)
    (hload : st.loadingCachedState = false)
    (hsrc : source ≠ "before-unlock")
    (hwin : now - st.lastLocalChangeTime < localChangeProtectionMs) :
    loadCachedState now source st fetch = st ∧
    loadCachedState now "before-unlock" st fetch = loadCachedStateBody st fetch := by
  constructor
  · unfold loadCachedState
    rw [if_neg (by simp [hload]), if_pos ⟨hsrc, hwin⟩]
  · unfold loadCachedState
    rw [if_neg (by simp [hload]), if_neg (by simp)]

/-- Witness for C2 at a concrete state and fetch result. -/
theorem loadCachedState_protection_witness :
    loadCachedState 1000 "sync-now" sampleSt (.ok (some [("title", 2)]) none) = sampleSt ∧
    loadCachedState 1000 "before-unlock" sampleSt (.ok (some [("title", 2)]) none)
      = loadCachedStateBody sampleSt (.ok (some [("title", 2)]) none) :=
  loadCachedState_protection 1000 "sync-now" sampleSt (.ok (some [("title", 2)]) none)
    (by decide) (by decide) (by decide)

/-- C3: in the `focus` whisper handler a `lockField` commit is issued
exactly when the event comes from another window and the focusing user is
a different user; for our own user (from another window) the handler
issues only the pending-unlock cancellation and the focus-tracking
commit, so a user never locks a field against their own other windows. -/
theorem focus_same_user_never_locks (myWindowId : String) (myUserId userId : Nat)
    (handle windowId : String) (u : Nat) (hh : String)
    (hw : windowId ≠ myWindowId) :
    (Commit.lockField u hh ∈ onFocusWhisper myWindowId myUserId userId handle windowId
      ↔ (userId ≠ myUserId ∧ u = userId ∧ hh = handle)) ∧
    onFocusWhisper myWindowId myUserId myUserId handle windowId
      = [Commit.cancelPendingUnlock handle, Commit.focus myUserId handle] := by
  constructor
  · unfold onFocusWhisper
    rw [if_neg hw]
    by_cases h2 : userId = myUserId <;> simp [h2]
  · unfold onFocusWhisper
    rw [if_neg hw]
    simp

/-- Witness for C3 at concrete ids. -/
theorem focus_same_user_never_locks_witness :
    (Commit.lockField 9 "body" ∈ onFocusWhisper "w1" 5 7 "body" "w2"
      ↔ ((7 : Nat) ≠ 5 ∧ (9 : Nat) = 7 ∧ "body" = "body")) ∧
    onFocusWhisper "w1" 5 5 "body" "w2"
      = [Commit.cancelPendingUnlock "body", Commit.focus 5 "body"] :=
  focus_same_user_never_locks "w1" 5 7 "body" "w2" 9 "body" (by decide)

/-- C5: whisper sends nothing at all when the window is alone and `force`
is unset; with `force` set it sends the message (directly or chunked)
even when alone; and `persistAllChanges` issues its POST to the cache
service exactly when changes are pending, independently of aloneness
(which is not consulted on the persist path). -/
theorem whisper_alone_skips (event : String) (str : List Char) (msgId : String)
    (alone ok : Bool) (st : WsState V) :
    whisper true false event str msgId = WhisperSend.skipped ∧
    whisper alone true event str msgId =
      (if str.length < chunkSize then WhisperSend.direct event str
       else WhisperSend.chunked ("chunked-" ++ event) (mkChunks chunkSize msgId str)) ∧
    (persistAllChanges st ok).2 = st.hasPendingChanges := by
  refine ⟨rfl, by unfold whisper; simp, ?_⟩
  unfold persistAllChanges
  cases h : st.hasPendingChanges <;> cases ok <;> simp [h]

/-- C6: `isAlone` returns true exactly when the warm-up period is over,
at most one user is on the roster, at most one remote window is active,
and no same-browser sibling window has been detected; during warm-up it
is always false. -/
theorem isAlone_characterization (warmUp : Bool)
    (usersLen activeWindows localWindows : Nat) :
    isAlone warmUp usersLen activeWindows localWindows = true ↔
      (warmUp = false ∧ usersLen ≤ 1 ∧ activeWindows ≤ 1 ∧ localWindows = 0) := by
  unfold isAlone
  cases warmUp <;> simp <;> omega

/-- C7: both appliers of external state (the reconciliation fetch and the
initialize-state-for-window handler) leave the re-entrancy flag
`applyingBroadcast` false on every outcome - success, missing state,
fetch failure, or a throw in the middle of the merge - so propagation of
local changes is re-enabled after any apply. -/
theorem applyingBroadcast_always_reset (now : Nat) (source myWindowId : String)
    (st : WsState V) (fetch : FetchResult V) (p : InitStatePayload V) (crash : Bool)
    (h : st.applyingBroadcast = false) :
    (loadCachedState now source st fetch).applyingBroadcast = false ∧
    (applyInitializeState now myWindowId st p crash).applyingBroadcast = false := by
  constructor
  · unfold loadCachedState loadCachedStateBody
    split
    · exact h
    · split
      · exact h
      · simp
  · unfold applyInitializeState
    split
    · exact h
    · split
      · exact h
      · split <;> simp

/-- Witness for C7: a failing fetch and a merge that throws halfway, at a
concrete state. -/
theorem applyingBroadcast_always_reset_witness :
    (loadCachedState 5000 "channel.here" sampleSt FetchResult.failed).applyingBroadcast
      = false ∧
    (applyInitializeState 5000 "w1" sampleSt
      { values := [("title", 3)], meta := [], fromWindowId := "w2" } true).applyingBroadcast
      = false :=
  applyingBroadcast_always_reset 5000 "channel.here" "w1" sampleSt FetchResult.failed
    { values := [("title", 3)], meta := [], fromWindowId := "w2" } true (by decide)

/-- C9: when the POST of pending changes fails, `persistAllChanges`
restores the pending flag so a later attempt retries; when it succeeds
the flag stays false; and a failed reconciliation fetch leaves the
document values and metadata unchanged. -/
theorem persist_failure_marks_retry (now : Nat) (source : String) (st : WsState V)
    (h : st.hasPendingChanges = true) :
    (persistAllChanges st false).1.hasPendingChanges = true ∧
    (persistAllChanges st true).1.hasPendingChanges = false ∧
    (loadCachedState now source st FetchResult.failed).values = st.values ∧
    (loadCachedState now source st FetchResult.failed).meta = st.meta := by
  refine ⟨?_, ?_, ?_, ?_⟩
  · unfold persistAllChanges
    simp [h]
  · unfold persistAllChanges
    simp [h]
  · unfold loadCachedState loadCachedStateBody
    split
    · rfl
    · split
      · rfl
      · simp
  · unfold loadCachedState loadCachedStateBody
    split
    · rfl
    · split
      · rfl
      · simp

/-- Witness for C9 at a concrete state whose guards let the fetch body
run. -/
theorem persist_failure_marks_retry_witness :
    (persistAllChanges sampleSt false).1.hasPendingChanges = true ∧
    (persistAllChanges sampleSt true).1.hasPendingChanges = false ∧
    (loadCachedState 5000 "sync-now" sampleSt FetchResult.failed).values
      = sampleSt.values ∧
    (loadCachedState 5000 "sync-now" sampleSt FetchResult.failed).meta
      = sampleSt.meta :=
  persist_failure_marks_retry 5000 "sync-now" sampleSt (by decide)

/-- C10: when the change cache has no entry for a handle, or a falsy one
(0, the empty string, false, null), the cached value is coerced to null
before serialized comparison, so a mutation whose new value serializes to
"null" is treated as unchanged: the handler returns with the state intact
(nothing remembered, nothing marked dirty, no persist scheduled). -/
theorem null_change_not_remembered (now : Nat) (st : WsState JVal) (handle : String)
    (newValue : JVal)
    (hcache : oget handle st.lastValues = none ∨
      ∃ v, oget handle st.lastValues = some v ∧ falsy v = true)
    (hnew : jstringify newValue = "null") :
    vuexFieldValueHasBeenSet now st handle newValue = st := by
  unfold vuexFieldValueHasBeenSet hasChanged
  rw [hnew]
  rcases hcache with h | ⟨v, hv, hfv⟩
  · simp [h, jstringify]
  · simp [hv, hfv, jstringify]

/-- Witness for C10: the cached last-seen value is the falsy 0 and the
incoming value is null; the mutation is ignored. -/
theorem null_change_not_remembered_witness :
    vuexFieldValueHasBeenSet 500
      ({ values := []
         meta := []
         lastValues := [("count", JVal.jnum 0)]
         lastMetaValues := []
         applyingBroadcast := false
         loadingCachedState := false
         lastLocalChangeTime := 0
         hasPendingChanges := false } : WsState JVal)
      "count" JVal.jnull
    = { values := []
        meta := []
        lastValues := [("count", JVal.jnum 0)]
        lastMetaValues := []
        applyingBroadcast := false
        loadingCachedState := false
        lastLocalChangeTime := 0
        hasPendingChanges := false } :=
  null_change_not_remembered 500 _ "count" JVal.jnull
    (Or.inr ⟨JVal.jnum 0, by decide, by decide⟩) (by decide)

/-! Claims C8 and C4. -/

/-- C8: applying the same reconciliation payload twice in succession
yields exactly the same Workspace state (document values, metadata and
the last-seen caches included) as applying it once.  The key-uniqueness
hypotheses hold of any payload parsed from a JSON response. -/
theorem reconciliation_apply_idempotent (st : WsState V) (vs : Option (Obj V))
    (ms : Option (Obj (Obj V)))
    (hv : ∀ l, vs = some l → keysNodup l)
    (hm : ∀ l, ms = some l → keysNodup l) :
    loadCachedStateBody (loadCachedStateBody st (.ok vs ms)) (.ok vs ms)
      = loadCachedStateBody st (.ok vs ms) := by
  cases vs with
  | none =>
    cases ms with
    | none => rfl
    | some m =>
      by_cases hme : m.isEmpty
      · simp [loadCachedStateBody, hme]
      · simp [loadCachedStateBody, hme, objMerge_idem m (hm m rfl)]
  | some l =>
    cases ms with
    | none =>
      by_cases hle : l.isEmpty
      · simp [loadCachedStateBody, hle]
      · simp [loadCachedStateBody, hle, objMerge_idem l (hv l rfl)]
    | some m =>
      by_cases hle : l.isEmpty <;> by_cases hme : m.isEmpty <;>
        simp [loadCachedStateBody, hle, hme,
          objMerge_idem l (hv l rfl), objMerge_idem m (hm m rfl)]

/-- Witness for C8 at a concrete state and payload. -/
theorem reconciliation_apply_idempotent_witness :
    loadCachedStateBody
      (loadCachedStateBody sampleSt (.ok (some [("title", 2)]) (some [("img", [("url", 9)])])))
      (.ok (some [("title", 2)]) (some [("img", [("url", 9)])]))
    = loadCachedStateBody sampleSt
        (.ok (some [("title", 2)]) (some [("img", [("url", 9)])])) :=
  reconciliation_apply_idempotent sampleSt (some [("title", 2)])
    (some [("img", [("url", 9)])])
    (by rintro l hl; cases hl; decide)
    (by rintro l hl; cases hl; decide)

/-- Reading one key of the doubly mapped restored-meta object: both
per-key spreads collapse onto the entry of that key. -/
theorem oget_double_map (A B : Obj (Obj V)) (pm : Obj (Obj V)) (h : String) :
    oget h (List.map ((fun kv => (kv.1, objMerge ((oget kv.1 A).getD []) kv.2)) ∘
        (fun kv => (kv.1, objMerge ((oget kv.1 B).getD []) kv.2))) pm)
      = (oget h pm).map (fun mobj =>
          objMerge ((oget h A).getD []) (objMerge ((oget h B).getD []) mobj)) := by
  have hfun : ((fun kv => (kv.1, objMerge ((oget kv.1 A).getD []) kv.2)) ∘
      (fun kv : String × Obj V => (kv.1, objMerge ((oget kv.1 B).getD []) kv.2)))
      = fun kv => (kv.1, (fun k0 v =>
          objMerge ((oget k0 A).getD []) (objMerge ((oget k0 B).getD []) v)) kv.1 kv.2) := by
    funext kv; rfl
  rw [hfun, oget_map_val (fun k0 v =>
    objMerge ((oget k0 A).getD []) (objMerge ((oget k0 B).getD []) v)) pm h]

/-- C4 counterexample: reconciliation of fetched persisted state does not
merge metadata per field key as existing with incoming winning on leaf
keys; the incoming entry replaces the existing one wholesale, so the
nested sub-key `alt`, absent from the partial update, is discarded
rather than preserved. -/
theorem fetched_meta_not_merged_counterexample :
    oget "alt" ((oget "img" stC4.meta).getD []) = some 3 ∧
    oget "alt"
      ((oget "img" (loadCachedState 5000 "sync-now" stC4 fetchC4).meta).getD [])
      = none := by
  decide

/-- C4 amended: when reconciliation applies fetched persisted state,
values are shallow-merged with fetched keys winning, and metadata is
applied per field key with the incoming entry replacing the existing one
wholesale (field keys absent from the fetch are preserved); the per-key
existing-under-incoming metadata merge happens on the
initialize-state-for-window path, where the incoming entry is spread over
the last-known meta and then over the current meta of that field key. -/
theorem fetched_merge_amended (st : WsState V) (vs : Obj V) (ms : Obj (Obj V))
    (k h : String) (now : Nat) (myWindowId : String) (p : InitStatePayload V)
    (hvne : vs ≠ []) (hmne : ms ≠ [])
    (hfrom : p.fromWindowId ≠ myWindowId)
    (hprot : ¬ now - st.lastLocalChangeTime < localChangeProtectionMs) :
    oget k (loadCachedStateBody st (.ok (some vs) (some ms))).values
      = (oget k vs).or (oget k st.values) ∧
    oget h (loadCachedStateBody st (.ok (some vs) (some ms))).meta
      = (oget h ms).or (oget h st.meta) ∧
    oget h (applyInitializeState now myWindowId st p false).meta
      = (match oget h p.meta with
         | some mobj => some (objMerge ((oget h st.meta).getD [])
             (objMerge ((oget h st.lastMetaValues).getD []) mobj))
         | none => oget h st.meta) := by
  have hve : vs.isEmpty = false := by simp [List.isEmpty_iff, hvne]
  have hme : ms.isEmpty = false := by simp [List.isEmpty_iff, hmne]
  refine ⟨?_, ?_, ?_⟩
  · simp [loadCachedStateBody, hve, hme, oget_objMerge]
  · simp [loadCachedStateBody, hve, hme, oget_objMerge]
  · unfold applyInitializeState restoreEntireMetaPayload
    rw [if_neg hfrom, if_neg hprot]
    cases hpm : oget h p.meta <;> simp [oget_objMerge, oget_double_map, hpm]

/-- Witness for the amended C4 at concrete states and payloads. -/
theorem fetched_merge_amended_witness :
    oget "title"
      (loadCachedStateBody sampleSt
        (.ok (some [("title", 5)]) (some [("img", [("url", 9)])]))).values
      = (oget "title" [("title", 5)]).or (oget "title" sampleSt.values) ∧
    oget "img"
      (loadCachedStateBody sampleSt
        (.ok (some [("title", 5)]) (some [("img", [("url", 9)])]))).meta
      = (oget "img" [("img", [("url", 9)])]).or (oget "img" sampleSt.meta) ∧
    oget "img" (applyInitializeState 5000 "w1" sampleSt initC4 false).meta
      = (match oget "img" initC4.meta with
         | some mobj => some (objMerge ((oget "img" sampleSt.meta).getD [])
             (objMerge ((oget "img" sampleSt.lastMetaValues).getD []) mobj))
         | none => oget "img" sampleSt.meta) :=
  fetched_merge_amended sampleSt [("title", 5)] [("img", [("url", 9)])] "title" "img"
    5000 "w1" initC4 (by decide) (by decide) (by decide) (by decide)

/-! Claim C1: arithmetic of the chunking loop. -/

theorem lt_numChunks_iff (c : Nat) (hc : 0 < c) (i len : Nat) :
    i < numChunks c len ↔ i * c < len := by
  unfold numChunks
  rcases Nat.eq_zero_or_pos len with rfl | hlen
  · have h0 : (0 + c - 1) / c = 0 := Nat.div_eq_of_lt (by omega)
    rw [h0]
    simp
  · constructor
    · intro h
      have h1 : (i + 1) * c ≤ len + c - 1 := (Nat.le_div_iff_mul_le hc).mp (by omega)
      rw [Nat.succ_mul] at h1
      omega
    · intro h
      have h1 : (i + 1) * c ≤ len + c - 1 := by rw [Nat.succ_mul]; omega
      have h2 : i + 1 ≤ (len + c - 1) / c := (Nat.le_div_iff_mul_le hc).mpr h1
      omega

theorem numChunks_eq (c : Nat) (hc : 0 < c) (len : Nat) (hlen : 0 < len) :
    numChunks c len = (len - 1) / c + 1 := by
  unfold numChunks
  have h : len + c - 1 = (len - 1) + c := by omega
  rw [h, Nat.add_div_right _ hc]

theorem numChunks_zero (c : Nat) (hc : 0 < c) : numChunks c 0 = 0 := by
  unfold numChunks
  exact Nat.div_eq_of_lt (by omega)

theorem numChunks_sub (c : Nat) (hc : 0 < c) (len : Nat) (hlen : 0 < len) :
    numChunks c len = numChunks c (len - c) + 1 := by
  rcases le_or_lt len c with hle | hlt
  · have h1 : len - c = 0 := by omega
    rw [numChunks_eq c hc len hlen, h1, numChunks_zero c hc,
      Nat.div_eq_of_lt (by omega : len - 1 < c)]
  · have hp : 0 < len - c := by omega
    rw [numChunks_eq c hc len hlen, numChunks_eq c hc (len - c) hp]
    have h : len - 1 = (len - c - 1) + c := by omega
    rw [h, Nat.add_div_right _ hc]

theorem numChunks_pos (c : Nat) (hc : 0 < c) (len : Nat) (hlen : 0 < len) :
    0 < numChunks c len := by
  rw [numChunks_eq c hc len hlen]
  exact Nat.succ_pos _

/-- Joining the chunk slices in index order gives back the payload. -/
theorem flatten_chunkData (c : Nat) (hc : 0 < c) :
    ∀ (n : Nat) (s : List Char), s.length ≤ n →
      ((List.range (numChunks c s.length)).map (fun i => (s.drop (i * c)).take c)).flatten
        = s := by
  intro n
  induction n with
  | zero =>
    intro s hs
    have hnil : s = [] := List.eq_nil_of_length_eq_zero (by omega)
    subst hnil
    simp [numChunks_zero c hc]
  | succ n ih =>
    intro s hs
    by_cases h0 : s.length = 0
    · have hnil : s = [] := List.eq_nil_of_length_eq_zero h0
      subst hnil
      simp [numChunks_zero c hc]
    · have hpos : 0 < s.length := by omega
      rw [numChunks_sub c hc s.length hpos, List.range_succ_eq_map]
      simp only [List.map_cons, List.flatten_cons, List.map_map]
      have htail :
          (List.map ((fun i => (s.drop (i * c)).take c) ∘ Nat.succ)
            (List.range (numChunks c (s.length - c)))).flatten = s.drop c := by
        have hfun : ((fun i => (s.drop (i * c)).take c) ∘ Nat.succ)
            = fun i => (((s.drop c).drop (i * c)).take c) := by
          funext i
          simp only [Function.comp_apply]
          rw [List.drop_drop, Nat.succ_mul, Nat.add_comm]
        rw [hfun, show s.length - c = (s.drop c).length from by simp]
        exact ih (s.drop c) (by simp; omega)
      rw [htail, Nat.zero_mul, List.drop_zero]
      exact List.take_append_drop c s

theorem mem_mkChunks_iff (c : Nat) (msgId : String) (s : List Char) (d : ChunkMsg) :
    d ∈ mkChunks c msgId s ↔
      ∃ i, i < numChunks c s.length ∧ d = chunkMsgAt c msgId s i := by
  unfold mkChunks
  simp only [List.mem_map, List.mem_range]
  constructor
  · rintro ⟨i, hi, rfl⟩
    exact ⟨i, hi, rfl⟩
  · rintro ⟨i, hi, rfl⟩
    exact ⟨i, hi, rfl⟩

/-- Within range, the final flag marks exactly the last chunk index. -/
theorem chunkMsgAt_final_iff (c : Nat) (hc : 0 < c) (msgId : String) (s : List Char)
    (i : Nat) (hi : i < numChunks c s.length) :
    (chunkMsgAt c msgId s i).final = true ↔ i = numChunks c s.length - 1 := by
  unfold chunkMsgAt
  simp only [decide_eq_true_eq, ge_iff_le]
  constructor
  · intro h
    by_contra hne
    have hlt : i + 1 < numChunks c s.length := by omega
    have h2 := (lt_numChunks_iff c hc (i + 1) s.length).mp hlt
    rw [Nat.mul_comm] at h
    omega
  · intro h
    have hN : ¬ (i + 1 < numChunks c s.length) := by omega
    have h2 : ¬ ((i + 1) * c < s.length) :=
      fun hlt => hN ((lt_numChunks_iff c hc (i + 1) s.length).mpr hlt)
    rw [Nat.mul_comm]
    omega

/-! Claim C1: sparse-array lemmas. -/

theorem slot_eq (a : List (Option α)) (j : Nat) : slot a j = (a[j]?).getD none := by
  unfold slot
  exact List.getD_eq_getElem?_getD a j none

theorem slot_of_lt (a : List (Option α)) (j : Nat) (h : j < a.length) :
    slot a j = a[j] := by
  rw [slot_eq, List.getElem?_eq_getElem h]
  rfl

theorem slot_of_ge (a : List (Option α)) (j : Nat) (h : a.length ≤ j) :
    slot a j = none := by
  rw [slot_eq, List.getElem?_eq_none h]
  rfl

theorem slot_isSome_lt (a : List (Option α)) (j : Nat)
    (h : (slot a j).isSome = true) : j < a.length := by
  by_contra hge
  rw [slot_of_ge a j (by omega)] at h
  simp at h

theorem arrSet_length (a : List (Option α)) (i : Nat) (v : α) :
    (arrSet a i v).length = max a.length (i + 1) := by
  unfold arrSet
  split
  · simp
    omega
  · simp
    omega

theorem slot_arrSet (a : List (Option α)) (i : Nat) (v : α) (j : Nat) :
    slot (arrSet a i v) j = if j = i then some v else slot a j := by
  unfold arrSet
  by_cases hi : i < a.length
  · rw [if_pos hi]
    by_cases hj : j = i
    · subst hj
      rw [if_pos rfl, slot_of_lt _ j (by simp [hi])]
      simp [List.getElem_set]
    · rw [if_neg hj]
      by_cases hjl : j < a.length
      · rw [slot_of_lt _ j (by simpa using hjl), slot_of_lt a j hjl]
        have hij : i ≠ j := fun h => hj h.symm
        simp [List.getElem_set, hij]
      · rw [slot_of_ge _ j (by simp; omega), slot_of_ge a j (by omega)]
  · rw [if_neg hi]
    by_cases hj : j = i
    · subst hj
      rw [if_pos rfl, slot_eq,
        List.getElem?_append_right (by simp; omega),
        List.getElem?_eq_getElem (by simp; omega)]
      simp
    · rw [if_neg hj]
      by_cases hjl : j < a.length
      · rw [slot_eq, List.getElem?_append_left (by simp; omega),
          List.getElem?_append_left hjl, slot_eq]
      · rw [slot_of_ge a j (by omega), slot_eq]
        rcases Nat.lt_or_ge j i with hlt | hge
        · rw [List.getElem?_append_left (by simp; omega),
            List.getElem?_append_right (by omega),
            List.getElem?_eq_getElem (by simp; omega)]
          simp
        · rw [List.getElem?_eq_none (by simp; omega)]
          rfl

theorem countSome_eq_of_all (a : List (Option α)) (h : ∀ x ∈ a, x.isSome = true) :
    countSome a = a.length := by
  unfold countSome
  rw [List.filter_eq_self.mpr h]

theorem all_isSome_of_countSome (a : List (Option α)) (h : a.length = countSome a) :
    ∀ x ∈ a, x.isSome = true := by
  unfold countSome at h
  have heq : a.filter Option.isSome = a :=
    (List.filter_sublist a).eq_of_length h.symm
  intro x hx
  have hx2 : x ∈ a.filter Option.isSome := by rw [heq]; exact hx
  exact List.of_mem_filter hx2

/-- A complete, correct buffer joins back to the original payload. -/
theorem join_complete (c : Nat) (hc : 0 < c) (s : List Char)
    (arr : List (Option (List Char)))
    (hlen : arr.length = numChunks c s.length)
    (hgood : ∀ j v, slot arr j = some v → v = (s.drop (j * c)).take c)
    (hall : ∀ x ∈ arr, x.isSome = true) :
    joinChunks arr = s := by
  unfold joinChunks
  have hmap : arr.map (fun o => o.getD [])
      = (List.range (numChunks c s.length)).map (fun i => (s.drop (i * c)).take c) := by
    apply List.ext_getElem
    · simp [hlen]
    · intro j h1 h2
      simp only [List.getElem_map, List.getElem_range]
      have hj : j < arr.length := by simpa using h1
      have hx := hall arr[j] (List.getElem_mem hj)
      rcases Option.isSome_iff_exists.mp hx with ⟨v, hv⟩
      have hslot : slot arr j = some v := by rw [slot_of_lt arr j hj, hv]
      rw [hv]
      simpa using hgood j v hslot
  rw [hmap]
  exact flatten_chunkData c hc s.length s le_rfl

/-- One unfolding of the chunked-listener step on a known buffer. -/
theorem reasmStep_char (st : ReasmState) (d : ChunkMsg) (pm : PendingMsg)
    (he : (oget d.id st.events).getD { chunks := [], receivedFinal := false } = pm) :
    reasmStep st d =
      if (pm.receivedFinal || d.final) = true ∧
          (arrSet pm.chunks d.index d.chunk).length
            = countSome (arrSet pm.chunks d.index d.chunk) then
        { events := odel d.id st.events
          delivered := st.delivered ++ [joinChunks (arrSet pm.chunks d.index d.chunk)] }
      else
        { events := oset d.id { chunks := arrSet pm.chunks d.index d.chunk
                                receivedFinal := pm.receivedFinal || d.final } st.events
          delivered := st.delivered } := by
  unfold reasmStep
  rw [he]

/-! Claim C1: invariant preservation of the reassembly run. -/

theorem countOcc_cons (x d : ChunkMsg) (l : List ChunkMsg) :
    countOcc x (d :: l) = (if d = x then 1 else 0) + countOcc x l := rfl

theorem chunkMsgAt_index_inj (c : Nat) (msgId : String) (s : List Char) (i j : Nat)
    (h : chunkMsgAt c msgId s i = chunkMsgAt c msgId s j) : i = j := by
  have := congrArg ChunkMsg.index h
  simpa [chunkMsgAt] using this

/-- Step preservation on a buffered (phase A) state. -/
theorem reasmInv_step_core (c : Nat) (msgId : String) (s : List Char)
    (hc : 0 < c) (hs : 0 < s.length) (i : Nat)
    (hiN : i < numChunks c s.length)
    (rem : List ChunkMsg) (st : ReasmState)
    (arr : List (Option (List Char))) (fin : Bool)
    (hshape : st.events = [] ∨
      st.events = [(msgId, { chunks := arr, receivedFinal := fin })])
    (he : (oget msgId st.events).getD { chunks := [], receivedFinal := false }
      = { chunks := arr, receivedFinal := fin })
    (hdel : st.delivered = [])
    (hbuf : bufInv c msgId s (chunkMsgAt c msgId s i :: rem) arr fin) :
    reasmInv c msgId s rem (reasmStep st (chunkMsgAt c msgId s i)) := by
  obtain ⟨⟨hlen, hgood⟩, hfin2, hcnt, hmiss, hnc⟩ := hbuf
  have hN1 : 0 < numChunks c s.length := numChunks_pos c hc s.length hs
  have hfinal_iff := chunkMsgAt_final_iff c hc msgId s i hiN
  have hdfm : chunkMsgAt c msgId s i = chunkMsgAt c msgId s (numChunks c s.length - 1)
      ↔ i = numChunks c s.length - 1 := by
    constructor
    · exact chunkMsgAt_index_inj c msgId s i _
    · intro h; rw [h]
  rw [reasmStep_char st (chunkMsgAt c msgId s i) { chunks := arr, receivedFinal := fin } he]
  by_cases hcond : (({ chunks := arr, receivedFinal := fin } : PendingMsg).receivedFinal
        || (chunkMsgAt c msgId s i).final) = true ∧
      (arrSet ({ chunks := arr, receivedFinal := fin } : PendingMsg).chunks
          (chunkMsgAt c msgId s i).index (chunkMsgAt c msgId s i).chunk).length
        = countSome (arrSet ({ chunks := arr, receivedFinal := fin } : PendingMsg).chunks
            (chunkMsgAt c msgId s i).index (chunkMsgAt c msgId s i).chunk)
  · -- the completion test fires: the payload is delivered and the buffer dropped
    rw [if_pos hcond]
    have hor : fin = true ∨ (chunkMsgAt c msgId s i).final = true := by
      have := hcond.1
      simpa using this
    have hslotN : (slot (arrSet arr i ((s.drop (i * c)).take c))
        (numChunks c s.length - 1)).isSome = true := by
      rw [slot_arrSet]
      by_cases hji : numChunks c s.length - 1 = i
      · rw [if_pos hji]; rfl
      · rw [if_neg hji]
        rcases hor with hfy | hdf
        · exact hfin2 hfy
        · exact absurd (hfinal_iff.mp hdf).symm hji
    have hlen' : (arrSet arr i ((s.drop (i * c)).take c)).length
        = numChunks c s.length := by
      have h1 := slot_isSome_lt _ _ hslotN
      have h2 := arrSet_length arr i ((s.drop (i * c)).take c)
      omega
    have hgood' : ∀ j v, slot (arrSet arr i ((s.drop (i * c)).take c)) j = some v →
        v = (s.drop (j * c)).take c := by
      intro j v hv
      rw [slot_arrSet] at hv
      by_cases hji : j = i
      · rw [if_pos hji] at hv
        subst hji
        exact (Option.some_inj.mp hv).symm
      · rw [if_neg hji] at hv
        exact hgood j v hv
    have hall : ∀ x ∈ arrSet arr i ((s.drop (i * c)).take c), x.isSome = true :=
      all_isSome_of_countSome _ hcond.2
    have hjoin : joinChunks (arrSet arr i ((s.drop (i * c)).take c)) = s :=
      join_complete c hc s _ hlen' hgood' hall
    refine Or.inr ⟨?_, Or.inl ?_, ?_⟩
    · show st.delivered ++ [joinChunks (arrSet arr i ((s.drop (i * c)).take c))] = [s]
      rw [hdel, hjoin]
      rfl
    · show odel (chunkMsgAt c msgId s i).id st.events = []
      rcases hshape with hse | hse <;> rw [hse] <;> simp [odel, chunkMsgAt]
    · rcases hfy : fin with _ | _
      · -- the final chunk is being consumed right now
        have hdf : (chunkMsgAt c msgId s i).final = true := by
          rcases hor with h | h
          · rw [hfy] at h; cases h
          · exact h
        have hdm : chunkMsgAt c msgId s i
            = chunkMsgAt c msgId s (numChunks c s.length - 1) :=
          hdfm.mpr (hfinal_iff.mp hdf)
        rw [hfy] at hcnt
        rw [countOcc_cons, if_pos hdm] at hcnt
        simp at hcnt
        exact hcnt
      · -- the final chunk was consumed earlier
        rw [hfy] at hcnt
        simp at hcnt
        by_cases hdm : chunkMsgAt c msgId s i
            = chunkMsgAt c msgId s (numChunks c s.length - 1)
        · rw [countOcc_cons, if_pos hdm] at hcnt
          omega
        · rw [countOcc_cons, if_neg hdm] at hcnt
          omega
  · -- no delivery: the chunk is buffered
    rw [if_neg hcond]
    refine Or.inl ⟨hdel, arrSet arr i ((s.drop (i * c)).take c),
      fin || (chunkMsgAt c msgId s i).final, Or.inr ?_, ⟨⟨?_, ?_⟩, ?_, ?_, ?_, ?_⟩⟩
    · show oset (chunkMsgAt c msgId s i).id
        { chunks := arrSet arr i ((s.drop (i * c)).take c)
          receivedFinal := fin || (chunkMsgAt c msgId s i).final } st.events
        = [(msgId, _)]
      rcases hshape with hse | hse <;> rw [hse] <;> simp [oset, chunkMsgAt]
    · rw [arrSet_length]
      omega
    · intro j v hv
      rw [slot_arrSet] at hv
      by_cases hji : j = i
      · rw [if_pos hji] at hv
        subst hji
        exact (Option.some_inj.mp hv).symm
      · rw [if_neg hji] at hv
        exact hgood j v hv
    · intro hfy
      rw [slot_arrSet]
      by_cases hji : numChunks c s.length - 1 = i
      · rw [if_pos hji]; rfl
      · rw [if_neg hji]
        rcases Bool.or_eq_true_iff.mp hfy with h | h
        · exact hfin2 h
        · exact absurd (hfinal_iff.mp h).symm hji
    · by_cases hdm : chunkMsgAt c msgId s i
          = chunkMsgAt c msgId s (numChunks c s.length - 1)
      · have hdf : (chunkMsgAt c msgId s i).final = true :=
          hfinal_iff.mpr (hdfm.mp hdm)
        have hfy : fin = false := by
          rcases hfz : fin with _ | _
          · rfl
          · rw [hfz] at hcnt
            rw [countOcc_cons, if_pos hdm] at hcnt
            simp at hcnt
        rw [hfy] at hcnt
        rw [countOcc_cons, if_pos hdm] at hcnt
        simp at hcnt
        rw [hfy, hdf]
        simpa using hcnt
      · have hdf : (chunkMsgAt c msgId s i).final = false := by
          rcases hdz : (chunkMsgAt c msgId s i).final with _ | _
          · rfl
          · exact absurd (hdfm.mpr (hfinal_iff.mp hdz)) hdm
        rw [countOcc_cons, if_neg hdm] at hcnt
        rw [hdf]
        simpa using hcnt
    · intro j hj hslot
      rw [slot_arrSet] at hslot
      by_cases hji : j = i
      · rw [if_pos hji] at hslot
        cases hslot
      · rw [if_neg hji] at hslot
        rcases List.mem_cons.mp (hmiss j hj hslot) with h | h
        · exact absurd (chunkMsgAt_index_inj c msgId s j i h) hji
        · exact h
    · exact hcond

/-- The reassembly invariant is preserved by each received chunk. -/
theorem reasmInv_step (c : Nat) (msgId : String) (s : List Char)
    (hc : 0 < c) (hs : 0 < s.length)
    (d : ChunkMsg) (rem : List ChunkMsg) (st : ReasmState)
    (hd : d ∈ mkChunks c msgId s)
    (hinv : reasmInv c msgId s (d :: rem) st) :
    reasmInv c msgId s rem (reasmStep st d) := by
  obtain ⟨i, hiN, rfl⟩ := (mem_mkChunks_iff c msgId s d).mp hd
  have hfinal_iff := chunkMsgAt_final_iff c hc msgId s i hiN
  rcases hinv with ⟨hdel, arr, fin, hev, hbuf⟩ | ⟨hdel, hev, hcnt⟩
  · -- phase A
    rcases hev with ⟨hse, harr, hfin0⟩ | hse
    · subst harr
      subst hfin0
      exact reasmInv_step_core c msgId s hc hs i hiN rem st [] false
        (Or.inl hse) (by rw [hse]; rfl) hdel hbuf
    · exact reasmInv_step_core c msgId s hc hs i hiN rem st arr fin
        (Or.inr hse) (by rw [hse]; simp [oget]) hdel hbuf
  · -- phase B: already delivered; no remaining chunk carries the final flag
    have hdm : ¬ chunkMsgAt c msgId s i
        = chunkMsgAt c msgId s (numChunks c s.length - 1) := by
      intro h
      rw [countOcc_cons, if_pos h] at hcnt
      omega
    have hcnt' : countOcc (chunkMsgAt c msgId s (numChunks c s.length - 1)) rem = 0 := by
      rw [countOcc_cons, if_neg hdm] at hcnt
      omega
    have hdf : (chunkMsgAt c msgId s i).final = false := by
      rcases hdz : (chunkMsgAt c msgId s i).final with _ | _
      · rfl
      · exact absurd (by rw [hfinal_iff.mp hdz]) hdm
    rcases hev with hse | ⟨arr0, hse⟩
    · rw [reasmStep_char st (chunkMsgAt c msgId s i)
        { chunks := [], receivedFinal := false } (by rw [hse]; rfl)]
      rw [if_neg (by simp [hdf])]
      refine Or.inr ⟨hdel, Or.inr
        ⟨arrSet [] (chunkMsgAt c msgId s i).index (chunkMsgAt c msgId s i).chunk, ?_⟩,
        hcnt'⟩
      rw [hse, hdf]
      simp [oset, chunkMsgAt]
    · rw [reasmStep_char st (chunkMsgAt c msgId s i)
        { chunks := arr0, receivedFinal := false } (by rw [hse]; simp [oget, chunkMsgAt])]
      rw [if_neg (by simp [hdf])]
      refine Or.inr ⟨hdel, Or.inr
        ⟨arrSet arr0 (chunkMsgAt c msgId s i).index (chunkMsgAt c msgId s i).chunk, ?_⟩,
        hcnt'⟩
      rw [hse, hdf]
      simp [oset, chunkMsgAt]

/-- The reassembly invariant carries through a whole received sequence. -/
theorem reasmInv_run (c : Nat) (msgId : String) (s : List Char)
    (hc : 0 < c) (hs : 0 < s.length) :
    ∀ (rem : List ChunkMsg) (st : ReasmState),
      (∀ d ∈ rem, d ∈ mkChunks c msgId s) →
      reasmInv c msgId s rem st →
      reasmInv c msgId s [] (rem.foldl reasmStep st) := by
  intro rem
  induction rem with
  | nil => exact fun st _ h => h
  | cons d rem ih =>
    intro st hmem hinv
    rw [List.foldl_cons]
    exact ih (reasmStep st d) (fun x hx => hmem x (by simp [hx]))
      (reasmInv_step c msgId s hc hs d rem st (hmem d (by simp)) hinv)

/-- C1: for a payload large enough that whisper splits it into chunks,
delivering those chunks to the chunked listener in any order, every
chunk at least once and the final-flagged chunk exactly once (duplicates
of non-final chunks allowed), makes the callback fire exactly once, with
exactly the original serialized payload; no partial payload is ever
delivered.  The payload is handled at the serialization level, as
whisper serializes before chunking and the listener parses the joined
string. -/
theorem chunked_reassembly_exactly_once (c : Nat) (msgId : String) (s : List Char)
    (ds : List ChunkMsg) (hc : 0 < c) (hsplit : c ≤ s.length)
    (hsub : ∀ d ∈ ds, d ∈ mkChunks c msgId s)
    (hall : ∀ d ∈ mkChunks c msgId s, d ∈ ds)
    (hfin : countOcc (chunkMsgAt c msgId s (numChunks c s.length - 1)) ds = 1) :
    (reasmRun ds).delivered = [s] := by
  have hs : 0 < s.length := lt_of_lt_of_le hc hsplit
  have hN : 0 < numChunks c s.length := numChunks_pos c hc s.length hs
  have hinit : reasmInv c msgId s ds { events := [], delivered := [] } := by
    refine Or.inl ⟨rfl, [], false, Or.inl ⟨rfl, rfl, rfl⟩,
      ⟨⟨by simp, ?_⟩, ?_, ?_, ?_, ?_⟩⟩
    · intro j v hv
      rw [slot_of_ge [] j (by simp)] at hv
      cases hv
    · intro h
      cases h
    · simpa using hfin
    · intro j hj _
      exact hall _ ((mem_mkChunks_iff c msgId s _).mpr ⟨j, hj, rfl⟩)
    · rintro ⟨h, _⟩
      cases h
  have hfinal := reasmInv_run c msgId s hc hs ds _ hsub hinit
  rcases hfinal with ⟨hdel, arr, fin, hev, ⟨⟨hlen, hgood⟩, hfin2, hcnt, hmiss, hnc⟩⟩ |
    ⟨hdel, _, _⟩
  · exfalso
    have hfin_true : fin = true := by
      rcases hfy : fin with _ | _
      · rw [hfy] at hcnt
        simp [countOcc] at hcnt
      · rfl
    have hmiss2 : ∀ j, j < numChunks c s.length → (slot arr j).isSome = true := by
      intro j hj
      rcases hsj : slot arr j with _ | v
      · exact absurd (hmiss j hj hsj) (List.not_mem_nil _)
      · rfl
    have hlenN : arr.length = numChunks c s.length := by
      have h1 := slot_isSome_lt arr _ (hmiss2 (numChunks c s.length - 1) (by omega))
      omega
    have hallsome : ∀ x ∈ arr, x.isSome = true := by
      intro x hx
      rcases List.mem_iff_getElem.mp hx with ⟨j, hjl, hx2⟩
      have h := hmiss2 j (by omega)
      rw [slot_of_lt arr j hjl, hx2] at h
      exact h
    exact hnc ⟨hfin_true, (countSome_eq_of_all arr hallsome).symm⟩
  · exact hdel

/-- Witness for C1: the five-character payload "abcde" split at chunk
size 2 into three chunks, delivered out of order with a duplicate of the
middle (non-final) chunk. -/
theorem chunked_reassembly_exactly_once_witness :
    (reasmRun
      [chunkMsgAt 2 "m" "abcde".toList 1, chunkMsgAt 2 "m" "abcde".toList 2,
       chunkMsgAt 2 "m" "abcde".toList 0, chunkMsgAt 2 "m" "abcde".toList 1]).delivered
      = ["abcde".toList] :=
  chunked_reassembly_exactly_once 2 "m" "abcde".toList
    [chunkMsgAt 2 "m" "abcde".toList 1, chunkMsgAt 2 "m" "abcde".toList 2,
     chunkMsgAt 2 "m" "abcde".toList 0, chunkMsgAt 2 "m" "abcde".toList 1]
    (by decide) (by decide) (by decide) (by decide) (by decide)

end Collab
